import Mathlib

/-!
Verification of the EquationAlphabet repository.

Shallow embedding of the Python sources:
  * `src/models.py` / `SimpleEquation.py`  — `SimpleEquation`, `CompactEquation`,
    `stringify_equation`
  * `src/generate.py`                      — `Generate.generate_all_equations`
  * `src/equation_alphabet/generator.py`   — `Generator.generate_all_equations`,
    `Generator.generate_representative_equations`
  * `src/equations/solver.py`              — `Solver.verify_solution_set`, `Solver.relabel`

Python integers are modelled by `Int` for API arguments (so out-of-range
`n ≤ 0` is representable) and by `Nat` for assignment values (always in `1..n`).
Python exceptions are modelled by `Except PyErr`; functions that cannot raise
are total Lean functions.
-/

/-- Python exceptions the solver can raise: `KeyError` from a dict lookup and
`ValueError` from an explicit `raise` / unsupported operator. -/
inductive PyErr where
  | keyError (k : String)
  | valueError (msg : String)
deriving DecidableEq, Repr

/-- Model of `CompactEquation = Tuple[str, str, str, str]` from `src/models.py`:
a 4-tuple of single-character strings. -/
abbrev CompactEquation := String × String × String × String

/-- The first `m` uppercase letters as single-character strings:
`[chr(ord("A") + i) for i in range(m)]`, the symbol alphabet used by both
generators and the solver. -/
def symbols (m : Nat) : List String :=
  (List.range m).map (fun i => String.singleton (Char.ofNat (65 + i)))

namespace Generate

/-- Model of `generate_all_equations` from `src/generate.py`.  NOTE: this legacy copy
appends `(op, x, y, z)` — the operator in the FIRST slot — although its own
docstring and doctest examples promise `(x, op, y, z)`. -/
def generate_all_equations (n : Int) : List CompactEquation :=
  if n < 1 ∨ 26 < n then []
  else
    let symbols := symbols n.toNat
    symbols.flatMap fun x =>
      symbols.flatMap fun y =>
        symbols.flatMap fun z =>
          [(("+" : String), x, y, z), (("*" : String), x, y, z)]

end Generate

namespace Generator

/-- Model of `generate_all_equations` from `src/equation_alphabet/generator.py`:
for every ordered triple `(x, y, z)` in cartesian-product order and each
operator `+` then `*`, emit `(x, op, y, z)`. -/
def generate_all_equations (n : Int) : List CompactEquation :=
  if n < 1 ∨ 26 < n then []
  else
    let symbols := symbols n.toNat
    symbols.flatMap fun x =>
      symbols.flatMap fun y =>
        symbols.flatMap fun z =>
          [(x, ("+" : String), y, z), (x, ("*" : String), y, z)]

/-- The 8 representative forms emitted for a 3-symbol combination `(x, y, z)`
in `generate_representative_equations`. -/
def representativeBlock (x y z : String) : List CompactEquation :=
  [(x, "+", x, x), (x, "*", x, x),
   (x, "+", x, y), (x, "*", x, y),
   (x, "+", y, x), (x, "*", y, x),
   (x, "+", y, z), (x, "*", y, z)]

/-- All ordered pairs `(y, z)` with `y` before `z` in the input list —
the tail step of `itertools.combinations(l, 2)` in combinatorial order. -/
def pairsOf : List α → List (α × α)
  | [] => []
  | y :: ys => (ys.map fun z => (y, z)) ++ pairsOf ys

/-- Model of `itertools.combinations(l, 3)` in combinatorial (index-lexicographic)
order, as 3-tuples. -/
def combinations3 : List α → List (α × α × α)
  | [] => []
  | x :: xs => ((pairsOf xs).map fun p => (x, p.1, p.2)) ++ combinations3 xs

/-- Model of `generate_representative_equations` from
`src/equation_alphabet/generator.py`. -/
def generate_representative_equations (n : Int) : List CompactEquation :=
  if n < 1 ∨ 26 < n then []
  else if n < 3 then
    [(("A" : String), ("+" : String), ("A" : String), ("A" : String)),
     (("A" : String), ("*" : String), ("A" : String), ("A" : String))] ++
      (if n = 2 then
        [(("A" : String), ("+" : String), ("A" : String), ("B" : String)),
         (("A" : String), ("*" : String), ("A" : String), ("B" : String)),
         (("A" : String), ("+" : String), ("B" : String), ("A" : String)),
         (("A" : String), ("*" : String), ("B" : String), ("A" : String))]
       else [])
  else
    (combinations3 (symbols n.toNat)).flatMap fun t =>
      representativeBlock t.1 t.2.1 t.2.2

end Generator

-- Length of a bind whose blocks all have the same length.
theorem length_bind_const {α β : Type} (l : List α) (f : α → List β) (c : Nat)
    (h : ∀ a ∈ l, (f a).length = c) : (l.flatMap f).length = l.length * c := by
  induction l with
  | nil => simp
  | cons a as ih =>
      simp only [List.flatMap_cons, List.length_append, List.length_cons]
      rw [h a (List.mem_cons_self a as), ih (fun b hb => h b (List.mem_cons_of_mem a hb))]
      ring

theorem symbols_length (m : Nat) : (symbols m).length = m := by
  simp [symbols]

theorem pairsOf_length {α : Type} (l : List α) :
    (Generator.pairsOf l).length = l.length.choose 2 := by
  induction l with
  | nil => rfl
  | cons y ys ih =>
      simp only [Generator.pairsOf, List.length_append, List.length_map, ih,
        List.length_cons]
      rw [Nat.choose_succ_succ, Nat.choose_one_right]

theorem combinations3_length {α : Type} (l : List α) :
    (Generator.combinations3 l).length = l.length.choose 3 := by
  induction l with
  | nil => rfl
  | cons x xs ih =>
      simp only [Generator.combinations3, List.length_append, List.length_map,
        pairsOf_length, ih, List.length_cons]
      rw [Nat.choose_succ_succ]

/-- A Python value as it may appear in a `SimpleEquation` field: an `int`
or a value of any other type (Python is dynamically typed, so `var1` can
hold e.g. a string; only its non-int-ness matters to validation). -/
inductive PyVal where
  | vint (n : Int)
  | vother (tag : String)
deriving DecidableEq, Repr

/-- Model of `isinstance(v, int) and v > 0` — the positivity test from
`SimpleEquation.is_valid` in `src/models.py` / `SimpleEquation.py`. -/
def PyVal.isPosInt : PyVal → Bool
  | .vint n => 0 < n
  | .vother _ => false

/-- Model of `SimpleEquation` from `src/models.py` (identical copy in
`SimpleEquation.py`): `var1 op var2 = var3`, fields unvalidated at
construction. -/
structure SimpleEquation where
  op : String
  var1 : PyVal
  var2 : PyVal
  var3 : PyVal
deriving DecidableEq, Repr

namespace SimpleEquation

/-- Addition of two Python values as used by `evaluate`; `is_valid` only
reaches it on ints, any non-int case is modelled as a `TypeError`. -/
def addVal : PyVal → PyVal → Except PyErr PyVal
  | .vint a, .vint b => .ok (.vint (a + b))
  | _, _ => .error (.valueError "TypeError")

/-- Multiplication of two Python values as used by `evaluate`. -/
def mulVal : PyVal → PyVal → Except PyErr PyVal
  | .vint a, .vint b => .ok (.vint (a * b))
  | _, _ => .error (.valueError "TypeError")

/-- Model of `SimpleEquation.evaluate`: `var1 op var2`, raising `ValueError` for an
unsupported operator. -/
def evaluate (e : SimpleEquation) : Except PyErr PyVal :=
  if e.op = "+" then addVal e.var1 e.var2
  else if e.op = "*" then mulVal e.var1 e.var2
  else .error (.valueError ("Unsupported operator: " ++ e.op))

/-- Model of `SimpleEquation.is_valid(require_consistency)`: sequential checks exactly
as in the source — operator first, then positive-int fields, then (when
requested) consistency of `evaluate()` with `var3`.  The `Except` result
models the possibility of an escaping exception. -/
def is_valid (e : SimpleEquation) (require_consistency : Bool) : Except PyErr Bool :=
  if ¬(e.op = "+" ∨ e.op = "*") then .ok false
  else if ¬(e.var1.isPosInt ∧ e.var2.isPosInt ∧ e.var3.isPosInt) then .ok false
  else
    match evaluate e with
    | .error err => .error err
    | .ok v => if require_consistency ∧ v ≠ e.var3 then .ok false else .ok true

end SimpleEquation

/-- One way to choose an element out of a list: `picksOf l` is the list of
pairs `(x, rest)` where `x` is an element of `l` and `rest` is `l` with that
one occurrence removed, in order of the chosen position.  This is the
selection order `itertools.permutations` uses. -/
def picksOf : List α → List (α × List α)
  | [] => []
  | x :: xs => (x, xs) :: (picksOf xs).map (fun p => (p.1, x :: p.2))

/-- Fuel-indexed permutation enumeration; with fuel ≥ length this lists every
permutation of the input in `itertools.permutations` order (lexicographic in
the positions chosen). -/
def permsAux : Nat → List α → List (List α)
  | _, [] => [[]]
  | 0, _ :: _ => []
  | fuel + 1, l => (picksOf l).flatMap (fun p => (permsAux fuel p.2).map (p.1 :: ·))

/-- Model of `itertools.permutations(l)` (all permutations, generation order). -/
def permutationsL (l : List α) : List (List α) := permsAux l.length l

theorem picksOf_perm {α : Type} {x : α} {rest l : List α}
    (h : (x, rest) ∈ picksOf l) : l.Perm (x :: rest) := by
  induction l generalizing x rest with
  | nil => simp [picksOf] at h
  | cons a as ih =>
      simp only [picksOf, List.mem_cons, List.mem_map] at h
      rcases h with h | ⟨p, hp, heq⟩
      · cases h; exact List.Perm.refl _
      · obtain ⟨p1, p2⟩ := p
        cases heq
        exact List.Perm.trans ((ih hp).cons a) (List.Perm.swap p1 a p2)

theorem picksOf_of_mem {α : Type} {x : α} {l : List α} (h : x ∈ l) :
    ∃ s t, l = s ++ x :: t ∧ (x, s ++ t) ∈ picksOf l := by
  induction l with
  | nil => cases h
  | cons a as ih =>
      rcases List.mem_cons.mp h with rfl | h'
      · exact ⟨[], as, rfl, List.mem_cons_self _ _⟩
      · obtain ⟨s, t, hdecomp, hmem⟩ := ih h'
        refine ⟨a :: s, t, by rw [hdecomp]; rfl, ?_⟩
        simp only [picksOf, List.mem_cons, List.mem_map]
        exact Or.inr ⟨(x, s ++ t), hmem, rfl⟩

theorem perm_of_mem_permsAux {α : Type} :
    ∀ (fuel : Nat) (l p : List α), l.length ≤ fuel → p ∈ permsAux fuel l →
      p.Perm l := by
  intro fuel
  induction fuel with
  | zero =>
      intro l p hlen hp
      match l with
      | [] => simp only [permsAux, List.mem_singleton] at hp; simp [hp]
      | _ :: _ => simp at hlen
  | succ fuel ih =>
      intro l p hlen hp
      match l with
      | [] => simp only [permsAux, List.mem_singleton] at hp; simp [hp]
      | a :: as =>
          simp only [permsAux, List.mem_flatMap, List.mem_map] at hp
          obtain ⟨⟨x, rest⟩, hpick, q, hq, rfl⟩ := hp
          have hperm := picksOf_perm hpick
          have hrest : rest.length + 1 = (a :: as).length := by
            have := hperm.length_eq
            simpa using this.symm
          have hq' : q.Perm rest := by
            refine ih rest q ?_ hq
            omega
          exact List.Perm.trans (hq'.cons x) hperm.symm

theorem mem_permsAux_of_perm {α : Type} :
    ∀ (fuel : Nat) (l p : List α), l.length ≤ fuel → p.Perm l →
      p ∈ permsAux fuel l := by
  intro fuel
  induction fuel with
  | zero =>
      intro l p hlen hperm
      match l with
      | [] =>
          have : p = [] := List.Perm.eq_nil hperm
          simp [permsAux, this]
      | _ :: _ => simp at hlen
  | succ fuel ih =>
      intro l p hlen hperm
      match l with
      | [] =>
          have : p = [] := List.Perm.eq_nil hperm
          simp [permsAux, this]
      | a :: as =>
          match p with
          | [] => exact absurd hperm.symm.eq_nil (by simp)
          | x :: q =>
              have hx : x ∈ a :: as := hperm.mem_iff.mp (List.mem_cons_self _ _)
              obtain ⟨s, t, hdecomp, hpick⟩ := picksOf_of_mem hx
              have hmid : (s ++ x :: t).Perm (x :: (s ++ t)) := List.perm_middle
              have hq : q.Perm (s ++ t) := by
                have : (x :: q).Perm (x :: (s ++ t)) :=
                  List.Perm.trans (hdecomp ▸ hperm) hmid
                exact this.cons_inv
              have hlen' : (s ++ t).length ≤ fuel := by
                have h1 : (s ++ x :: t).length = (a :: as).length := by rw [hdecomp]
                simp only [List.length_append, List.length_cons] at h1 ⊢
                simp only [List.length_cons] at hlen
                omega
              simp only [permsAux, List.mem_flatMap, List.mem_map]
              exact ⟨(x, s ++ t), hpick, q, ih _ _ hlen' hq, rfl⟩

theorem mem_permutationsL {α : Type} (l p : List α) :
    p ∈ permutationsL l ↔ p.Perm l :=
  ⟨perm_of_mem_permsAux l.length l p le_rfl,
   mem_permsAux_of_perm l.length l p le_rfl⟩

namespace Solver

/-- An assignment as built by `verify_solution_set`: the Python dict
`{var: val for var, val in zip(variables, p)}`, keys in alphabet order. -/
abbrev Assignment := List (String × Nat)

/-- Model of `assignment[name]` — Python dict indexing; a missing key raises
`KeyError(name)`. -/
def lookupVal (a : Assignment) (name : String) : Except PyErr Nat :=
  match a.find? (fun p => p.1 == name) with
  | some p => .ok p.2
  | none => .error (.keyError name)

/-- Applying a compact equation's operator to two assigned values —
`SimpleEquation(op, val1, val2, _).evaluate()` restricted to the `Nat`
values the solver feeds it; a bad operator raises `ValueError`. -/
def evalOp (op : String) (v1 v2 : Nat) : Except PyErr Nat :=
  if op = "+" then .ok (v1 + v2)
  else if op = "*" then .ok (v1 * v2)
  else .error (.valueError ("Unsupported operator: " ++ op))

/-- The inner loop of `verify_solution_set`: check the equations one by one
against `a`, reading `val1`, `val2`, `res_val` in that order (a missing
symbol raises `KeyError`), and stop at the first equation the assignment
falsifies (`.ok false`, Python's `break`). -/
def checkEquations (a : Assignment) : List CompactEquation → Except PyErr Bool
  | [] => .ok true
  | (x, op, y, z) :: rest =>
    match lookupVal a x with
    | .error err => .error err
    | .ok v1 =>
      match lookupVal a y with
      | .error err => .error err
      | .ok v2 =>
        match lookupVal a z with
        | .error err => .error err
        | .ok rv =>
          match evalOp op v1 v2 with
          | .error err => .error err
          | .ok ev => if ev = rv then checkEquations a rest else .ok false

/-- The outer loop of `verify_solution_set`: try each candidate permutation
in order, collecting the assignments that satisfy every equation; any
exception aborts the whole call. -/
def solveLoop (vars : List String) (eqs : List CompactEquation) :
    List (List Nat) → Except PyErr (List Assignment)
  | [] => .ok []
  | p :: ps =>
    match checkEquations (vars.zip p) eqs with
    | .error err => .error err
    | .ok ok =>
      match solveLoop vars eqs ps with
      | .error err => .error err
      | .ok rest => .ok (if ok then vars.zip p :: rest else rest)

/-- Model of `verify_solution_set` from `src/equations/solver.py`. -/
def verify_solution_set (n : Int) (eqs : List CompactEquation) :
    Except PyErr (List Assignment) :=
  if n < 1 ∨ 26 < n then .error (.valueError "n must be between 1 and 26.")
  else solveLoop (symbols n.toNat) eqs (permutationsL (List.range' 1 n.toNat))

/-- Specification-side satisfaction test: under assignment `a`, applying the
equation's operator to the two operand values gives the value of the result
symbol. -/
def satB (a : Assignment) : CompactEquation → Bool
  | (x, op, y, z) =>
    match a.find? (fun p => p.1 == x), a.find? (fun p => p.1 == y),
        a.find? (fun p => p.1 == z) with
    | some p1, some p2, some p3 =>
        (op == "+" && p1.2 + p2.2 == p3.2) || (op == "*" && p1.2 * p2.2 == p3.2)
    | _, _, _ => false

/-- A compact equation over the first `m` letters with a supported operator. -/
def wfEq (m : Nat) (e : CompactEquation) : Prop :=
  e.1 ∈ symbols m ∧ (e.2.1 = "+" ∨ e.2.1 = "*") ∧
    e.2.2.1 ∈ symbols m ∧ e.2.2.2 ∈ symbols m

instance (m : Nat) (e : CompactEquation) : Decidable (wfEq m e) := by
  unfold wfEq; infer_instance

end Solver

theorem find_zip_some {ks : List String} {vs : List Nat} {x : String}
    (hx : x ∈ ks) (hlen : ks.length ≤ vs.length) :
    ∃ v, (ks.zip vs).find? (fun p => p.1 == x) = some (x, v) := by
  induction ks generalizing vs with
  | nil => cases hx
  | cons a ks ih =>
      match vs with
      | [] => simp at hlen
      | v :: vs =>
          by_cases hax : a = x
          · subst hax
            exact ⟨v, by simp [List.find?]⟩
          · have hx' : x ∈ ks := by
              rcases List.mem_cons.mp hx with h | h
              · exact absurd h.symm hax
              · exact h
            have hlen' : ks.length ≤ vs.length := by
              simp only [List.length_cons] at hlen; omega
            obtain ⟨w, hw⟩ := ih hx' hlen'
            refine ⟨w, ?_⟩
            simp only [List.zip_cons_cons, List.find?]
            have : ((a, v).1 == x) = false := by
              simp [hax]
            rw [this]
            exact hw

theorem find_zip_none {ks : List String} {vs : List Nat} {x : String}
    (hx : x ∉ ks) :
    (ks.zip vs).find? (fun p => p.1 == x) = none := by
  induction ks generalizing vs with
  | nil => simp
  | cons a ks ih =>
      match vs with
      | [] => simp
      | v :: vs =>
          have hax : a ≠ x := fun h => hx (h ▸ List.mem_cons_self a ks)
          have hx' : x ∉ ks := fun h => hx (List.mem_cons_of_mem a h)
          simp only [List.zip_cons_cons, List.find?]
          have : ((a, v).1 == x) = false := by simp [hax]
          rw [this]
          exact ih hx'

namespace Solver

theorem checkEquations_eq_all {m : Nat} (a : Assignment)
    (eqs : List CompactEquation) (hwf : ∀ e ∈ eqs, wfEq m e)
    (ha : ∀ s ∈ symbols m, ∃ v, a.find? (fun p => p.1 == s) = some (s, v)) :
    checkEquations a eqs = .ok (eqs.all (satB a)) := by
  induction eqs with
  | nil => rfl
  | cons e rest ih =>
      obtain ⟨x, op, y, z⟩ := e
      obtain ⟨hx, hop, hy, hz⟩ := hwf _ (List.mem_cons_self _ _)
      obtain ⟨v1, hv1⟩ := ha x hx
      obtain ⟨v2, hv2⟩ := ha y hy
      obtain ⟨v3, hv3⟩ := ha z hz
      have hrest : checkEquations a rest = .ok (rest.all (satB a)) :=
        ih (fun e he => hwf e (List.mem_cons_of_mem _ he))
      have hsat : satB a (x, op, y, z) =
          ((op == "+" && v1 + v2 == v3) || (op == "*" && v1 * v2 == v3)) := by
        simp only [satB, hv1, hv2, hv3]
      rcases hop with hop | hop <;>
        · subst hop
          simp only [checkEquations, lookupVal, hv1, hv2, hv3, evalOp,
            List.all_cons, hsat, if_true, if_false, reduceIte]
          by_cases hev : v1 + v2 = v3 <;> by_cases hev' : v1 * v2 = v3 <;>
            simp_all [hrest]

theorem solveLoop_eq_filter (vars : List String) (eqs : List CompactEquation)
    (ps : List (List Nat))
    (h : ∀ p ∈ ps, checkEquations (vars.zip p) eqs =
      .ok (eqs.all (satB (vars.zip p)))) :
    solveLoop vars eqs ps =
      .ok ((ps.filter (fun p => eqs.all (satB (vars.zip p)))).map (vars.zip ·)) := by
  induction ps with
  | nil => rfl
  | cons p ps ih =>
      have hp := h p (List.mem_cons_self _ _)
      have hps := ih (fun q hq => h q (List.mem_cons_of_mem _ hq))
      simp only [solveLoop, hp, hps, List.filter_cons]
      by_cases hsat : eqs.all (satB (vars.zip p)) = true
      · simp [hsat]
      · rw [Bool.not_eq_true] at hsat
        simp [hsat]

end Solver

namespace Solver

/-- Strict lexicographic comparison of character lists — Python's `<` on
`str`. -/
def lexLt : List Char → List Char → Bool
  | [], [] => false
  | [], _ :: _ => true
  | _ :: _, [] => false
  | a :: as, b :: bs => if a < b then true else if b < a then false else lexLt as bs

/-- Python's `<=` on `str` via trichotomy: `a <= b` iff not `b < a`. -/
def lexLe (a b : String) : Bool := !lexLt b.data a.data

/-- Model of `str.maketrans` + `str.translate`: replace every character that is a key
of the (first-match) character map, leave the rest unchanged. -/
def translateChars (m : List (Char × Char)) (s : List Char) : List Char :=
  s.map fun c =>
    match m.find? (fun p => p.1 == c) with
    | some p => p.2
    | none => c

/-- Model of `re.split(r"([+*])", s)`: alternating segments and single-character
separator groups, every `+`/`*` occurrence splitting. -/
def splitOps : List Char → List (List Char)
  | [] => [[]]
  | c :: rest =>
      let r := splitOps rest
      if c = '+' ∨ c = '*' then [] :: [c] :: r
      else
        match r with
        | s :: tail => (c :: s) :: tail
        | [] => [[c]]

/-- Model of `s.split("=")`: the `=`-free segments of `s`, in order. -/
def splitOnEq : List Char → List (List Char)
  | [] => [[]]
  | c :: rest =>
      let r := splitOnEq rest
      if c = '=' then [] :: r
      else
        match r with
        | s :: tail => (c :: s) :: tail
        | [] => [[c]]

/-- The decomposition step of `relabel`:
`parts = re.split(r"([+*])", eq); left1 = parts[0]; op = parts[1];
left2, result = parts[2].split("=")`.  `none` models the `IndexError` /
unpacking `ValueError` on malformed input. -/
def splitEquation (s : List Char) : Option (List Char × Char × List Char × List Char) :=
  match splitOps s with
  | l1 :: opseg :: seg2 :: _ =>
      match opseg with
      | [op] =>
          match splitOnEq seg2 with
          | [l2, res] => some (l1, op, l2, res)
          | _ => none
      | _ => none
  | _ => none

/-- Stable insertion of a labels entry by value (`sorted` key). -/
def insertByVal (x : Char × Nat) : List (Char × Nat) → List (Char × Nat)
  | [] => [x]
  | y :: ys => if y.2 ≤ x.2 then y :: insertByVal x ys else x :: y :: ys

/-- Model of `sorted(labels.keys(), key=lambda k: labels[k])` — the labels entries
stably sorted by assigned value. -/
def sortByVal : List (Char × Nat) → List (Char × Nat)
  | [] => []
  | x :: xs => insertByVal x (sortByVal xs)

/-- Stable insertion of a string into a list sorted by Python `<=`. -/
def insertStr (x : String) : List String → List String
  | [] => [x]
  | y :: ys => if lexLe y x then y :: insertStr x ys else x :: y :: ys

/-- Model of `list.sort()` on strings (stable, lexicographic). -/
def sortStrings : List String → List String
  | [] => []
  | x :: xs => insertStr x (sortStrings xs)

/-- Model of `string.ascii_uppercase` as a character list. -/
def asciiUppercase : List Char := (List.range 26).map fun i => Char.ofNat (65 + i)

/-- The unique-solution record handed to `relabel`: a list of equation
strings such as `"A+B=C"` and a symbol-to-value mapping (a Python dict with
single-character keys, modelled as an association list in insertion order). -/
structure SolutionRecord where
  equations : List String
  labels : List (Char × Nat)
deriving DecidableEq, Repr

/-- Model of `op in ("+", "*")` — the commutativity test guarding the operand swap. -/
def opCommutes (op : Char) : Bool := op == '+' || op == '*'

/-- Relabel one equation string: apply the character translation, split into
`left1 op left2 = result`, swap the left-hand operands when `left1 > left2`
(Python string comparison), and reassemble. -/
def relabelEquation (table : List (Char × Char)) (eq : String) : Option String :=
  let releq := translateChars table eq.data
  match splitEquation releq with
  | none => none
  | some (l1, op, l2, res) =>
      let pair := if opCommutes op && lexLt l2 l1 then (l2, l1) else (l1, l2)
      some (String.mk (pair.1 ++ op :: pair.2 ++ '=' :: res))

/-- Apply `f` to every list element, first failure aborting — Python's raise
out of the loop body. -/
def mapOpt (f : α → Option β) : List α → Option (List β)
  | [] => some []
  | a :: as =>
      match f a, mapOpt f as with
      | some b, some bs => some (b :: bs)
      | _, _ => none

/-- Model of `relabel` from `src/equations/solver.py`.  `none` models the exception
escaping on a malformed equation string. -/
def relabel (r : SolutionRecord) : Option SolutionRecord :=
  let sortedOld := sortByVal r.labels
  let newAlpha := asciiUppercase.take sortedOld.length
  let table := (sortedOld.map Prod.fst).zip newAlpha
  match mapOpt (relabelEquation table) r.equations with
  | none => none
  | some eqs =>
      some { equations := sortStrings eqs,
             labels := newAlpha.zip (List.range' 1 newAlpha.length) }

/-- The canonical labels dictionary `{A: 1, B: 2, ..., k-th letter: k}`. -/
def canonicalLabels (k : Nat) : List (Char × Nat) :=
  ((List.range k).map fun i => Char.ofNat (65 + i)).zip (List.range' 1 k)

/-- An equation string already in the canonical form `relabel` produces:
it decomposes as `left1 op left2 = result`, reassembling those parts gives
back exactly the original string, and the left operands are already in
order (`left1 <= left2`). -/
def canonicalEqB (s : String) : Bool :=
  match splitEquation s.data with
  | some (l1, op, l2, res) =>
      !lexLt l2 l1 && decide (l1 ++ op :: l2 ++ '=' :: res = s.data)
  | none => false

end Solver

theorem length_triple {α β : Type} (l : List α) (f g : α → α → α → β) :
    (l.flatMap fun x => l.flatMap fun y => l.flatMap fun z =>
      [f x y z, g x y z]).length = 2 * l.length ^ 3 := by
  rw [length_bind_const _ _ (l.length * (l.length * 2))]
  · ring
  · intro x _
    rw [length_bind_const _ _ (l.length * 2)]
    intro y _
    rw [length_bind_const _ _ 2]
    intro z _
    rfl

/-- C1: `src/equation_alphabet/generator.py` emits 4-tuples in the order
`(operand, operator, operand, result)`, but the legacy copy of
`generate_all_equations` in `src/generate.py` — cited by the same claim and
carrying a docstring and doctests promising `(x, op, y, z)` — appends
`(op, x, y, z)` with the operator first.  At `n = 1` the legacy output is
`[("+","A","A","A"), ("*","A","A","A")]` instead of the documented
`[("A","+","A","A"), ("A","*","A","A")]`. -/
theorem c1_generate_all_equations_tuple_shape :
    Generate.generate_all_equations 1 =
      [("+", "A", "A", "A"), ("*", "A", "A", "A")] ∧
    Generator.generate_all_equations 1 =
      [("A", "+", "A", "A"), ("A", "*", "A", "A")] ∧
    Generate.generate_all_equations 1 ≠ Generator.generate_all_equations 1 := by
  refine ⟨by decide, by decide, by decide⟩

/-- C3: for every `n` (including `n ≤ 0` and `n > 26`), both copies of
`generate_all_equations` return a list of length `2·n³` when `1 ≤ n ≤ 26`
and length `0` otherwise. -/
theorem c3_generate_all_equations_length (n : Int) :
    (Generator.generate_all_equations n).length =
      (if 1 ≤ n ∧ n ≤ 26 then 2 * n.toNat ^ 3 else 0) ∧
    (Generate.generate_all_equations n).length =
      (if 1 ≤ n ∧ n ≤ 26 then 2 * n.toNat ^ 3 else 0) := by
  by_cases h : 1 ≤ n ∧ n ≤ 26
  · have hcond : ¬(n < 1 ∨ 26 < n) := by omega
    simp only [Generator.generate_all_equations, Generate.generate_all_equations,
      if_neg hcond, if_pos h]
    constructor
    · rw [length_triple]
      rw [symbols_length]
    · rw [length_triple]
      rw [symbols_length]
  · have hcond : n < 1 ∨ 26 < n := by omega
    simp only [Generator.generate_all_equations, Generate.generate_all_equations,
      if_pos hcond, if_neg h, List.length_nil]
    exact ⟨trivial, trivial⟩

/-- C4: for every out-of-range `n` (`n < 1` or `n > 26`), both generators
return the empty list without raising, while `verify_solution_set` raises
`ValueError` for every equation list — the designed asymmetry. -/
theorem c4_out_of_range_asymmetry (n : Int) (h : n < 1 ∨ 26 < n) :
    Generator.generate_all_equations n = [] ∧
    Generator.generate_representative_equations n = [] ∧
    Generate.generate_all_equations n = [] ∧
    ∀ eqs, Solver.verify_solution_set n eqs =
      .error (.valueError "n must be between 1 and 26.") := by
  refine ⟨?_, ?_, ?_, ?_⟩
  · simp [Generator.generate_all_equations, if_pos h]
  · simp [Generator.generate_representative_equations, if_pos h]
  · simp [Generate.generate_all_equations, if_pos h]
  · intro eqs
    simp [Solver.verify_solution_set, if_pos h]

theorem c4_out_of_range_asymmetry_witness :
    ((0 : Int) < 1 ∨ 26 < (0 : Int)) ∧
    Generator.generate_all_equations 0 = [] ∧
    Generator.generate_representative_equations 0 = [] ∧
    Generate.generate_all_equations 0 = [] ∧
    Solver.verify_solution_set 0 [] =
      .error (.valueError "n must be between 1 and 26.") := by
  have h := c4_out_of_range_asymmetry 0 (by decide)
  exact ⟨by decide, h.1, h.2.1, h.2.2.1, h.2.2.2 []⟩

/-- C8: for `1 ≤ n ≤ 26`, `generate_representative_equations n` has length
`8·C(n,3)` when `n ≥ 3`, `6` when `n = 2` and `2` when `n = 1`; for `n ≥ 3`
it is exactly the concatenation, over each 3-element combination `(x,y,z)`
of the alphabet in combinatorial order, of the 8-equation block covering
both operators across the forms `x op x = x`, `x op x = y`, `x op y = x`,
`x op y = z`. -/
theorem c8_generate_representative_equations (n : Int) (h1 : 1 ≤ n) (h2 : n ≤ 26) :
    (Generator.generate_representative_equations n).length =
      (if 3 ≤ n then 8 * n.toNat.choose 3 else if n = 2 then 6 else 2) ∧
    (3 ≤ n →
      Generator.generate_representative_equations n =
        (Generator.combinations3 (symbols n.toNat)).flatMap
          (fun t => Generator.representativeBlock t.1 t.2.1 t.2.2)) := by
  have hcond : ¬(n < 1 ∨ 26 < n) := by omega
  by_cases h3 : 3 ≤ n
  · have h3' : ¬(n < 3) := by omega
    have hstruct : Generator.generate_representative_equations n =
        (Generator.combinations3 (symbols n.toNat)).flatMap
          (fun t => Generator.representativeBlock t.1 t.2.1 t.2.2) := by
      simp only [Generator.generate_representative_equations, if_neg hcond, if_neg h3']
    refine ⟨?_, fun _ => hstruct⟩
    rw [if_pos h3, hstruct, length_bind_const _ _ 8]
    · rw [combinations3_length, symbols_length, Nat.mul_comm]
    · intro t _
      rfl
  · have h3' : n < 3 := by omega
    rw [if_neg h3]
    refine ⟨?_, fun hc => absurd hc h3⟩
    rcases (by omega : n = 1 ∨ n = 2) with rfl | rfl
    · decide
    · decide

theorem c8_generate_representative_equations_witness :
    (1 : Int) ≤ 3 ∧ (3 : Int) ≤ 26 ∧
    (Generator.generate_representative_equations 3).length =
      (if (3 : Int) ≤ 3 then 8 * (3 : Int).toNat.choose 3
       else if (3 : Int) = 2 then 6 else 2) ∧
    Generator.generate_representative_equations 3 =
      (Generator.combinations3 (symbols (3 : Int).toNat)).flatMap
        (fun t => Generator.representativeBlock t.1 t.2.1 t.2.2) := by
  have h := c8_generate_representative_equations 3 (by decide) (by decide)
  exact ⟨by decide, by decide, h.1, h.2 (by decide)⟩

/-- C7: `SimpleEquation.is_valid(require_consistency)` never raises, whatever
the operator and operand fields hold; it returns `true` exactly when the
operator is `+` or `*`, every operand is a positive integer, and — when
consistency is required — `evaluate()` equals the stated result. -/
theorem c7_is_valid_never_raises (e : SimpleEquation) (rc : Bool) :
    ∃ b, e.is_valid rc = .ok b ∧
      (b = true ↔ ((e.op = "+" ∨ e.op = "*") ∧
        (e.var1.isPosInt = true ∧ e.var2.isPosInt = true ∧ e.var3.isPosInt = true) ∧
        (rc = true → e.evaluate = .ok e.var3))) := by
  obtain ⟨op, v1, v2, v3⟩ := e
  simp only [SimpleEquation.is_valid]
  by_cases hop : op = "+" ∨ op = "*"
  · by_cases hpv : (PyVal.isPosInt v1 = true ∧ PyVal.isPosInt v2 = true ∧
        PyVal.isPosInt v3 = true)
    · obtain ⟨hp1, hp2, hp3⟩ := hpv
      cases v1 with
      | vother t => simp [PyVal.isPosInt] at hp1
      | vint a =>
        cases v2 with
        | vother t => simp [PyVal.isPosInt] at hp2
        | vint b =>
          have heval : SimpleEquation.evaluate ⟨op, .vint a, .vint b, v3⟩ =
              .ok (.vint (if op = "+" then a + b else a * b)) := by
            rcases hop with h | h <;> subst h <;>
              simp [SimpleEquation.evaluate, SimpleEquation.addVal,
                SimpleEquation.mulVal]
          rw [if_neg (not_not_intro hop), if_neg (not_not_intro ⟨hp1, hp2, hp3⟩),
            heval]
          dsimp only
          by_cases hfin : rc = true ∧ PyVal.vint (if op = "+" then a + b else a * b) ≠ v3
          · rw [if_pos hfin]
            refine ⟨false, rfl, ?_⟩
            simp only [Bool.false_eq_true, false_iff]
            rintro ⟨-, -, hcons⟩
            exact hfin.2 (by simpa [heval] using hcons hfin.1)
          · rw [if_neg hfin]
            refine ⟨true, rfl, ?_⟩
            simp only [true_iff]
            refine ⟨hop, ⟨hp1, hp2, hp3⟩, ?_⟩
            intro hrc
            by_cases hwv : PyVal.vint (if op = "+" then a + b else a * b) = v3
            · rw [hwv]
            · exact absurd ⟨hrc, hwv⟩ hfin
    · refine ⟨false, ?_, ?_⟩
      · rw [if_neg (not_not_intro hop), if_pos hpv]
      · simp only [Bool.false_eq_true, false_iff]
        rintro ⟨-, hconj, -⟩
        exact hpv hconj
  · refine ⟨false, ?_, ?_⟩
    · rw [if_pos hop]
    · simp only [Bool.false_eq_true, false_iff]
      rintro ⟨hconj, -, -⟩
      exact hop hconj

theorem c7_is_valid_never_raises_witness :
    ∃ b, SimpleEquation.is_valid ⟨"+", .vint 3, .vint 4, .vint 8⟩ true = .ok b ∧
      (b = true ↔ ((("+" : String) = "+" ∨ ("+" : String) = "*") ∧
        ((PyVal.vint 3).isPosInt = true ∧ (PyVal.vint 4).isPosInt = true ∧
          (PyVal.vint 8).isPosInt = true) ∧
        (true = true →
          SimpleEquation.evaluate ⟨"+", .vint 3, .vint 4, .vint 8⟩ =
            .ok (PyVal.vint 8)))) :=
  c7_is_valid_never_raises ⟨"+", .vint 3, .vint 4, .vint 8⟩ true

instance {e a : Type} [DecidableEq e] [DecidableEq a] : DecidableEq (Except e a) :=
  fun x y =>
    match x, y with
    | .ok u, .ok v => decidable_of_iff (u = v) (by rw [Except.ok.injEq])
    | .error u, .error v => decidable_of_iff (u = v) (by rw [Except.error.injEq])
    | .ok _, .error _ => isFalse (fun h => Except.noConfusion h)
    | .error _, .ok _ => isFalse (fun h => Except.noConfusion h)

/-- C2: for `1 ≤ n ≤ 26` and equations over the first `n` letters with
supported operators, `verify_solution_set` succeeds and returns exactly the
assignments induced by the permutations of `1..n` that satisfy every
equation, in permutation-generation order; in particular
`verify_solution_set(3, [("A","+","B","C")])` returns exactly
`{A:1,B:2,C:3}` and `{A:2,B:1,C:3}`. -/
theorem c2_verify_solution_set (n : Int) (h1 : 1 ≤ n) (h2 : n ≤ 26)
    (eqs : List CompactEquation) (hwf : ∀ e ∈ eqs, Solver.wfEq n.toNat e) :
    ∃ sols, Solver.verify_solution_set n eqs = .ok sols ∧
      sols = ((permutationsL (List.range' 1 n.toNat)).filter
          (fun p => eqs.all (Solver.satB ((symbols n.toNat).zip p)))).map
          ((symbols n.toNat).zip ·) ∧
      (∀ a, a ∈ sols ↔ ∃ p, p.Perm (List.range' 1 n.toNat) ∧
        a = (symbols n.toNat).zip p ∧
        ∀ e ∈ eqs, Solver.satB ((symbols n.toNat).zip p) e = true) ∧
      Solver.verify_solution_set 3 [("A", "+", "B", "C")] =
        .ok [[("A", 1), ("B", 2), ("C", 3)], [("A", 2), ("B", 1), ("C", 3)]] := by
  have hcond : ¬(n < 1 ∨ 26 < n) := by omega
  have hall : ∀ p ∈ permutationsL (List.range' 1 n.toNat),
      Solver.checkEquations ((symbols n.toNat).zip p) eqs =
        .ok (eqs.all (Solver.satB ((symbols n.toNat).zip p))) := by
    intro p hp
    have hperm : p.Perm (List.range' 1 n.toNat) := (mem_permutationsL _ _).mp hp
    have hlen : p.length = n.toNat := by
      simpa [List.length_range'] using hperm.length_eq
    refine Solver.checkEquations_eq_all (m := n.toNat) _ eqs hwf ?_
    intro s hs
    exact find_zip_some hs (by rw [symbols_length, hlen])
  have hloop := Solver.solveLoop_eq_filter (symbols n.toNat) eqs
    (permutationsL (List.range' 1 n.toNat)) hall
  refine ⟨_, ?_, rfl, ?_, ?_⟩
  · rw [Solver.verify_solution_set, if_neg hcond]
    exact hloop
  · intro a
    constructor
    · intro ha
      rw [List.mem_map] at ha
      obtain ⟨p, hpmem, rfl⟩ := ha
      rw [List.mem_filter] at hpmem
      obtain ⟨hpl, hsat⟩ := hpmem
      exact ⟨p, (mem_permutationsL _ _).mp hpl, rfl,
        fun e he => List.all_eq_true.mp hsat e he⟩
    · rintro ⟨p, hperm, rfl, hsat⟩
      rw [List.mem_map]
      refine ⟨p, ?_, rfl⟩
      rw [List.mem_filter]
      exact ⟨(mem_permutationsL _ _).mpr hperm, List.all_eq_true.mpr hsat⟩
  · decide

theorem c2_verify_solution_set_witness :
    (∀ e ∈ [(("A" : String), ("+" : String), ("B" : String), ("C" : String))],
      Solver.wfEq (3 : Int).toNat e) ∧
    ∃ sols, Solver.verify_solution_set 3 [("A", "+", "B", "C")] = .ok sols ∧
      sols = ((permutationsL (List.range' 1 (3 : Int).toNat)).filter
          (fun p => [(("A" : String), ("+" : String), ("B" : String),
            ("C" : String))].all (Solver.satB ((symbols (3 : Int).toNat).zip p)))).map
          ((symbols (3 : Int).toNat).zip ·) ∧
      (∀ a, a ∈ sols ↔ ∃ p, p.Perm (List.range' 1 (3 : Int).toNat) ∧
        a = (symbols (3 : Int).toNat).zip p ∧
        ∀ e ∈ [(("A" : String), ("+" : String), ("B" : String), ("C" : String))],
          Solver.satB ((symbols (3 : Int).toNat).zip p) e = true) ∧
      Solver.verify_solution_set 3 [("A", "+", "B", "C")] =
        .ok [[("A", 1), ("B", 2), ("C", 3)], [("A", 2), ("B", 1), ("C", 3)]] :=
  ⟨by decide, c2_verify_solution_set 3 (by decide) (by decide) _ (by decide)⟩

/-- C9 counterexample: an equation may reference a symbol outside the
alphabet and yet `verify_solution_set` returns an empty list instead of
raising: with `n = 1` the first equation `A+A=A` fails under the only
permutation, Python's `break` fires before the lookup of the out-of-range
symbol `B` in the second equation, and the call returns `[]`. -/
theorem c9_counterexample :
    Solver.verify_solution_set 1 [("A", "+", "A", "A"), ("B", "+", "A", "A")] =
      .ok [] ∧
    ("B" : String) ∉ symbols (1 : Int).toNat :=
  ⟨by decide, by decide⟩

/-- C9 (amended): for `1 ≤ n ≤ 26`, if the FIRST equation in the list
references — in any of its operand/result positions, the positions the
solver reads as symbols — a string outside the first `n` uppercase letters,
then `verify_solution_set` raises a `KeyError` on an out-of-alphabet key
rather than returning a solution list. -/
theorem c9_missing_symbol_keyerror (n : Int) (h1 : 1 ≤ n) (h2 : n ≤ 26)
    (x op y z : String) (rest : List CompactEquation)
    (hbad : x ∉ symbols n.toNat ∨ y ∉ symbols n.toNat ∨ z ∉ symbols n.toNat) :
    ∃ k, Solver.verify_solution_set n ((x, op, y, z) :: rest) =
      .error (.keyError k) ∧ k ∉ symbols n.toNat := by
  have hcond : ¬(n < 1 ∨ 26 < n) := by omega
  have hmem : List.range' 1 n.toNat ∈ permutationsL (List.range' 1 n.toNat) :=
    (mem_permutationsL _ _).mpr (List.Perm.refl _)
  have hne : permutationsL (List.range' 1 n.toNat) ≠ [] := by
    intro h
    rw [h] at hmem
    cases hmem
  obtain ⟨p, ps, hps⟩ := List.exists_cons_of_ne_nil hne
  have hpmem : p ∈ permutationsL (List.range' 1 n.toNat) := by
    rw [hps]
    exact List.mem_cons_self _ _
  have hlen : (symbols n.toNat).length ≤ p.length := by
    have hperm : p.Perm (List.range' 1 n.toNat) := (mem_permutationsL _ _).mp hpmem
    rw [symbols_length]
    simpa [List.length_range'] using hperm.length_eq.ge
  rw [Solver.verify_solution_set, if_neg hcond, hps]
  by_cases hx : x ∈ symbols n.toNat
  · obtain ⟨v1, hv1⟩ := find_zip_some hx hlen
    have hlx : Solver.lookupVal ((symbols n.toNat).zip p) x = .ok v1 := by
      simp [Solver.lookupVal, hv1]
    by_cases hy : y ∈ symbols n.toNat
    · have hz : z ∉ symbols n.toNat := by tauto
      obtain ⟨v2, hv2⟩ := find_zip_some hy hlen
      have hly : Solver.lookupVal ((symbols n.toNat).zip p) y = .ok v2 := by
        simp [Solver.lookupVal, hv2]
      have hlz : Solver.lookupVal ((symbols n.toNat).zip p) z =
          .error (.keyError z) := by
        simp [Solver.lookupVal, find_zip_none hz]
      refine ⟨z, ?_, hz⟩
      simp [Solver.solveLoop, Solver.checkEquations, hlx, hly, hlz]
    · have hly : Solver.lookupVal ((symbols n.toNat).zip p) y =
          .error (.keyError y) := by
        simp [Solver.lookupVal, find_zip_none hy]
      refine ⟨y, ?_, hy⟩
      simp [Solver.solveLoop, Solver.checkEquations, hlx, hly]
  · have hlx : Solver.lookupVal ((symbols n.toNat).zip p) x =
        .error (.keyError x) := by
      simp [Solver.lookupVal, find_zip_none hx]
    refine ⟨x, ?_, hx⟩
    simp [Solver.solveLoop, Solver.checkEquations, hlx]

theorem c9_missing_symbol_keyerror_witness :
    ∃ k, Solver.verify_solution_set 1 [("B", "+", "A", "A")] =
      .error (.keyError k) ∧ k ∉ symbols (1 : Int).toNat :=
  c9_missing_symbol_keyerror 1 (by decide) (by decide) "B" "+" "A" "A" []
    (Or.inl (by decide))

/-- C5 counterexample: on equations `["C+A=B","B*A=C"]` with labels
`{A:1,B:3,C:2}` the renaming is `A→A, C→B, B→C` (symbols sorted by value),
so `"B*A=C"` becomes `"C*A=B"` and canonicalizes to `"A*C=B"` — not the
`"A*B=C"` the claim (and the repository's own test) states. -/
theorem c5_relabel_counterexample :
    Solver.relabel { equations := ["C+A=B", "B*A=C"],
                     labels := [('A', 1), ('B', 3), ('C', 2)] } =
      some { equations := ["A*C=B", "A+B=C"],
             labels := [('A', 1), ('B', 2), ('C', 3)] } ∧
    Solver.relabel { equations := ["C+A=B", "B*A=C"],
                     labels := [('A', 1), ('B', 3), ('C', 2)] } ≠
      some { equations := ["A*B=C", "A+B=C"],
             labels := [('A', 1), ('B', 2), ('C', 3)] } :=
  ⟨by decide, by decide⟩

/-- C5 (amended): `relabel` renames symbols by ascending assigned value,
applies the renaming to every equation string, swaps the two left-hand
operands when the first exceeds the second, and sorts the results; on
equations `["C+A=B","B*A=C"]` with labels `{A:1,B:3,C:2}` it returns the
sorted equations `["A*C=B","A+B=C"]` and labels `{A:1,B:2,C:3}`. -/
theorem c5_relabel_roundtrip :
    Solver.relabel { equations := ["C+A=B", "B*A=C"],
                     labels := [('A', 1), ('B', 3), ('C', 2)] } =
      some { equations := ["A*C=B", "A+B=C"],
             labels := [('A', 1), ('B', 2), ('C', 3)] } := by decide

namespace Solver

theorem insertByVal_length (x : Char × Nat) (l : List (Char × Nat)) :
    (insertByVal x l).length = l.length + 1 := by
  induction l with
  | nil => rfl
  | cons y ys ih =>
      rw [insertByVal]
      by_cases h : y.2 ≤ x.2
      · rw [if_pos h, List.length_cons, ih, List.length_cons]
      · rw [if_neg h]
        rfl

theorem sortByVal_length (l : List (Char × Nat)) :
    (sortByVal l).length = l.length := by
  induction l with
  | nil => rfl
  | cons x xs ih => rw [sortByVal, insertByVal_length, ih, List.length_cons]

theorem sortByVal_zip_range' (ks : List Char) :
    ∀ s : Nat, sortByVal (ks.zip (List.range' s ks.length)) =
      ks.zip (List.range' s ks.length) := by
  induction ks with
  | nil => intro s; rfl
  | cons k ks ih =>
      intro s
      rw [List.length_cons, List.range'_succ, List.zip_cons_cons, sortByVal, ih]
      cases ks with
      | nil => rfl
      | cons k' ks' =>
          rw [List.length_cons, List.range'_succ, List.zip_cons_cons, insertByVal]
          rw [if_neg (by omega)]

theorem zip_self_fst_eq_snd {α : Type} (l : List α) :
    ∀ p ∈ l.zip l, p.1 = p.2 := by
  induction l with
  | nil => intro p hp; cases hp
  | cons a as ih =>
      intro p hp
      rw [List.zip_cons_cons] at hp
      rcases List.mem_cons.mp hp with rfl | hp'
      · rfl
      · exact ih p hp'

theorem map_id_of_mem {α : Type} (f : α → α) (l : List α)
    (h : ∀ a ∈ l, f a = a) : l.map f = l := by
  induction l with
  | nil => rfl
  | cons a as ih =>
      rw [List.map_cons, h a (List.mem_cons_self a as),
        ih (fun b hb => h b (List.mem_cons_of_mem a hb))]

theorem translateChars_id (m : List (Char × Char)) (s : List Char)
    (h : ∀ p ∈ m, p.1 = p.2) : translateChars m s = s := by
  refine map_id_of_mem _ s ?_
  intro c _
  cases hfind : m.find? (fun p => p.1 == c) with
  | none => rfl
  | some q =>
      have hq : q ∈ m := List.mem_of_find?_eq_some hfind
      have hq1 : q.1 = c := by
        have := List.find?_some hfind
        exact eq_of_beq this
      simpa using (h q hq) ▸ hq1

theorem mapOpt_id_of_mem {α : Type} (f : α → Option α) (l : List α)
    (h : ∀ a ∈ l, f a = some a) : mapOpt f l = some l := by
  induction l with
  | nil => rfl
  | cons a as ih =>
      rw [mapOpt, h a (List.mem_cons_self a as),
        ih (fun b hb => h b (List.mem_cons_of_mem a hb))]

theorem lexLt_antisymm : ∀ u v : List Char,
    lexLt u v = false → lexLt v u = false → u = v := by
  intro u
  induction u with
  | nil =>
      intro v huv _
      cases v with
      | nil => rfl
      | cons b bs => simp [lexLt] at huv
  | cons a as ih =>
      intro v huv hvu
      cases v with
      | nil => simp [lexLt] at hvu
      | cons b bs =>
          rw [lexLt] at huv hvu
          by_cases hab : a < b
          · rw [if_pos hab] at huv
            cases huv
          · rw [if_neg hab] at huv
            by_cases hba : b < a
            · rw [if_pos hba] at hvu
              cases hvu
            · rw [if_neg hba] at huv
              rw [if_neg hba, if_neg hab] at hvu
              have hchar : a = b := le_antisymm (not_lt.mp hba) (not_lt.mp hab)
              rw [hchar, ih bs huv hvu]

theorem string_data_inj {a b : String} (h : a.data = b.data) : a = b := by
  cases a
  cases b
  exact congrArg String.mk h

theorem insertStr_sorted_head (x : String) :
    ∀ xs : List String,
      List.Chain' (fun a b => lexLe a b = true) (x :: xs) →
      insertStr x xs = x :: xs := by
  intro xs
  induction xs with
  | nil => intro _; rfl
  | cons y ys ih =>
      intro hchain
      have hxy : lexLe x y = true := List.chain'_cons.mp hchain |>.1
      rw [insertStr]
      by_cases hyx : lexLe y x = true
      · have hxeqy : x = y := by
          apply string_data_inj
          apply lexLt_antisymm
          · rw [lexLe, Bool.not_eq_true'] at hyx
            exact hyx
          · rw [lexLe, Bool.not_eq_true'] at hxy
            exact hxy
        rw [if_pos hyx]
        subst hxeqy
        have hchain' : List.Chain' (fun a b => lexLe a b = true) (x :: ys) :=
          (List.chain'_cons.mp hchain).2
        rw [ih hchain']
      · rw [if_neg hyx]

theorem sortStrings_of_chain :
    ∀ l : List String, List.Chain' (fun a b => lexLe a b = true) l →
      sortStrings l = l := by
  intro l
  induction l with
  | nil => intro _; rfl
  | cons x xs ih =>
      intro hchain
      rw [sortStrings, ih hchain.tail, insertStr_sorted_head x xs hchain]

end Solver

theorem asciiUppercase_take (k : Nat) (hk : k ≤ 26) :
    Solver.asciiUppercase.take k =
      (List.range k).map (fun i => Char.ofNat (65 + i)) := by
  rw [Solver.asciiUppercase, ← List.map_take]
  congr 1
  rw [List.take_range, Nat.min_eq_left hk]

theorem sortByVal_canonical (k : Nat) :
    Solver.sortByVal (Solver.canonicalLabels k) = Solver.canonicalLabels k := by
  have hl : ((List.range k).map (fun i => Char.ofNat (65 + i))).length = k := by
    simp
  have h := Solver.sortByVal_zip_range'
    ((List.range k).map (fun i => Char.ofNat (65 + i))) 1
  rw [hl] at h
  exact h

theorem canonicalEqB_spec {s : String} (h : Solver.canonicalEqB s = true) :
    ∃ l1 op l2 res, Solver.splitEquation s.data = some (l1, op, l2, res) ∧
      Solver.lexLt l2 l1 = false ∧ l1 ++ op :: l2 ++ '=' :: res = s.data := by
  rw [Solver.canonicalEqB] at h
  split at h
  next l1 op l2 res heq =>
    rw [Bool.and_eq_true] at h
    refine ⟨l1, op, l2, res, heq, ?_, of_decide_eq_true h.2⟩
    have h1 := h.1
    rwa [Bool.not_eq_true'] at h1
  next => cases h

theorem relabelEquation_id (table : List (Char × Char))
    (htable : ∀ p ∈ table, p.1 = p.2) {s : String}
    (hcanon : Solver.canonicalEqB s = true) :
    Solver.relabelEquation table s = some s := by
  obtain ⟨l1, op, l2, res, hsp, hlt, hre⟩ := canonicalEqB_spec hcanon
  rw [Solver.relabelEquation, Solver.translateChars_id table s.data htable, hsp]
  dsimp only
  have hcond : ¬((Solver.opCommutes op && Solver.lexLt l2 l1) = true) := by
    rw [hlt]
    simp
  rw [if_neg hcond]
  dsimp only
  rw [hre]

theorem canonicalLabels_length (k : Nat) :
    (Solver.canonicalLabels k).length = k := by
  rw [Solver.canonicalLabels]
  simp [List.length_zip, List.length_range']

theorem canonicalLabels_map_fst (k : Nat) :
    (Solver.canonicalLabels k).map Prod.fst =
      (List.range k).map (fun i => Char.ofNat (65 + i)) := by
  rw [Solver.canonicalLabels]
  exact List.map_fst_zip _ _ (by simp [List.length_range'])

theorem relabel_canonical_fixed (eqs : List String) (k : Nat) (hk : k ≤ 26)
    (heqs : ∀ s ∈ eqs, Solver.canonicalEqB s = true)
    (hsorted : List.Chain' (fun a b => Solver.lexLe a b = true) eqs) :
    Solver.relabel ⟨eqs, Solver.canonicalLabels k⟩ =
      some ⟨eqs, Solver.canonicalLabels k⟩ := by
  simp only [Solver.relabel]
  rw [sortByVal_canonical, canonicalLabels_length, asciiUppercase_take k hk,
    canonicalLabels_map_fst]
  rw [Solver.mapOpt_id_of_mem _ _
    (fun s hs => relabelEquation_id _ (Solver.zip_self_fst_eq_snd _) (heqs s hs))]
  dsimp only
  rw [Solver.sortStrings_of_chain eqs hsorted]
  rw [show ((List.range k).map (fun i => Char.ofNat (65 + i))).length = k by simp]
  rfl

/-- C6: `relabel` is idempotent on canonical records: if every equation
string is canonical (reassembles to itself with left operands in order),
the equation list is sorted, and the labels are exactly
`{A:1, ..., k-th letter:k}`, then `relabel` returns the record unchanged. -/
theorem c6_relabel_idempotent (r : Solver.SolutionRecord)
    (hk : r.labels.length ≤ 26)
    (hlabels : r.labels = Solver.canonicalLabels r.labels.length)
    (heqs : ∀ s ∈ r.equations, Solver.canonicalEqB s = true)
    (hsorted : List.Chain' (fun a b => Solver.lexLe a b = true) r.equations) :
    Solver.relabel r = some r := by
  obtain ⟨eqs, labels⟩ := r
  simp only at hk hlabels heqs hsorted
  rw [show (⟨eqs, labels⟩ : Solver.SolutionRecord) =
    ⟨eqs, Solver.canonicalLabels labels.length⟩ by rw [← hlabels]]
  exact relabel_canonical_fixed eqs labels.length hk heqs hsorted

theorem c6_relabel_idempotent_witness :
    (([('A', 1), ('B', 2), ('C', 3)] : List (Char × Nat)).length ≤ 26) ∧
    (([('A', 1), ('B', 2), ('C', 3)] : List (Char × Nat)) =
      Solver.canonicalLabels
        ([('A', 1), ('B', 2), ('C', 3)] : List (Char × Nat)).length) ∧
    (∀ s ∈ (["A+B=C"] : List String), Solver.canonicalEqB s = true) ∧
    List.Chain' (fun a b => Solver.lexLe a b = true) ["A+B=C"] ∧
    Solver.relabel ⟨["A+B=C"], [('A', 1), ('B', 2), ('C', 3)]⟩ =
      some ⟨["A+B=C"], [('A', 1), ('B', 2), ('C', 3)]⟩ :=
  ⟨by decide, by decide, by decide, List.chain'_singleton _,
    c6_relabel_idempotent ⟨["A+B=C"], [('A', 1), ('B', 2), ('C', 3)]⟩
      (by decide) (by decide) (by decide) (List.chain'_singleton _)⟩

/-- C10: for every record `relabel` accepts — distinct symbol keys, at most
26 of them — the returned labels mapping is exactly
`{A:1, B:2, ..., k-th letter:k}` for `k` the number of symbols, whatever
the numeric values in the input labels were. -/
theorem c10_relabel_labels_canonical (r out : Solver.SolutionRecord)
    (hk : r.labels.length ≤ 26)
    (hnd : (r.labels.map Prod.fst).Nodup)
    (h : Solver.relabel r = some out) :
    out.labels = Solver.canonicalLabels r.labels.length := by
  rw [Solver.relabel] at h
  split at h
  next => cases h
  next eqs heq =>
    rw [← Option.some.inj h]
    dsimp only
    rw [Solver.sortByVal_length, asciiUppercase_take _ hk]
    rw [show ((List.range r.labels.length).map
      (fun i => Char.ofNat (65 + i))).length = r.labels.length by simp]
    rfl

theorem c10_relabel_labels_canonical_witness :
    (([('B', 5), ('A', 2), ('C', 9)] : List (Char × Nat)).length ≤ 26) ∧
    (([('B', 5), ('A', 2), ('C', 9)] : List (Char × Nat)).map Prod.fst).Nodup ∧
    Solver.relabel ⟨["A+B=C"], [('B', 5), ('A', 2), ('C', 9)]⟩ =
      some ⟨["A+B=C"], [('A', 1), ('B', 2), ('C', 3)]⟩ ∧
    (⟨["A+B=C"], [('A', 1), ('B', 2), ('C', 3)]⟩ :
      Solver.SolutionRecord).labels = Solver.canonicalLabels 3 :=
  ⟨by decide, by decide, by decide,
    c10_relabel_labels_canonical ⟨["A+B=C"], [('B', 5), ('A', 2), ('C', 9)]⟩
      ⟨["A+B=C"], [('A', 1), ('B', 2), ('C', 3)]⟩
      (by decide) (by decide) (by decide)⟩
